import Mathlib

/-
Verification development for `src/swarm/util.py`.

The module has two independent parts:
* DeltaMerger — `merge_fields` (lines 14–19) and `merge_chunk` (lines 22–29),
  which mutate an accumulator dict in place from streamed delta fragments;
* SchemaBuilder — `function_to_json` (lines 33–142) with its inner
  `parse_type`, which turns a callable's reflected signature into a
  JSON-serializable tool descriptor.

Python values flowing through the merger are modelled by `PyVal`.  Python
dicts are insertion-ordered association lists; all keys appearing in the
streaming protocol are strings, so keys are modelled as `String` (a Python
dict with a non-string key is out of the modelled state space; subscripting
such a dict with an int is modelled as the KeyError it would raise on the
string-keyed dicts of the protocol).  Exceptions (KeyError, TypeError,
IndexError, AttributeError) are modelled by an explicit error component: a
call returns the state of the mutated target at the moment the exception
propagates, because Python in-place mutation is not rolled back by an
exception.
-/

inductive PyErr where
  | keyError
  | typeError
  | indexError
  | attrError
deriving DecidableEq, Repr

inductive PyVal where
  | str (s : String)
  | int (n : Int)
  | bool (b : Bool)
  | none
  | list (xs : List PyVal)
  | dict (fields : List (String × PyVal))
deriving Repr

/-- First-match lookup in an insertion-ordered association list (Python
`d[k]` / `d.get(k)` on a dict with unique keys). -/
def lookupKey {α : Type} : List (String × α) → String → Option α
  | [], _ => Option.none
  | (k, v) :: fs, key => if k == key then some v else lookupKey fs key

/-- Replace the value at an existing key, keeping its position (Python
`d[k] = v` when `k` is already present). Absent keys leave the list
unchanged; the merger only calls this after a successful lookup. -/
def updateKey {α : Type} : List (String × α) → String → α → List (String × α)
  | [], _, _ => []
  | (k, v) :: fs, key, w => if k == key then (k, w) :: fs else (k, v) :: updateKey fs key w

/-- Remove the entry at a key if present (Python `d.pop(k, default)` /
`d.pop(k)` ignoring the returned value). -/
def eraseKey {α : Type} : List (String × α) → String → List (String × α)
  | [], _ => []
  | (k, v) :: fs, key => if k == key then fs else (k, v) :: eraseKey fs key

/-- Python `d[k] = v`: replace in place when the key exists, append at the
end otherwise (insertion order). -/
def setKey {α : Type} : List (String × α) → String → α → List (String × α)
  | [], key, w => [(key, w)]
  | (k, v) :: fs, key, w => if k == key then (k, w) :: fs else (k, v) :: setKey fs key w

/-- Python `k in d`. -/
def containsKey {α : Type} (fs : List (String × α)) (key : String) : Bool :=
  (lookupKey fs key).isSome

/-- Python truthiness of the modelled values. -/
def truthy : PyVal → Bool
  | .none => false
  | .bool b => b
  | .int n => n != 0
  | .str s => !s.isEmpty
  | .list xs => !xs.isEmpty
  | .dict fs => !fs.isEmpty

/-- Python `len(v)`; `Option.none` models the TypeError raised on values
with no length. -/
def pyLen : PyVal → Option Nat
  | .str s => some s.length
  | .list xs => some xs.length
  | .dict fs => some fs.length
  | _ => Option.none

/-- Iterating a Python string yields its one-character strings; this is
what `list += string` appends. -/
def strElems (s : String) : List PyVal :=
  s.toList.map fun c => PyVal.str (String.singleton c)

/-- Python list subscript `xs[i]` with an int index: a negative index
counts from the end; `Option.none` models IndexError. -/
def listIndex (xs : List PyVal) (i : Int) : Option PyVal :=
  let j : Int := if i < 0 then i + xs.length else i
  if 0 ≤ j ∧ j < (xs.length : Int) then some (xs.getD j.toNat PyVal.none) else Option.none

/-- Python list item replacement at an int index (negative indexes count
from the end); only used after `listIndex` succeeded. -/
def listSet (xs : List PyVal) (i : Int) (v : PyVal) : List PyVal :=
  let j : Int := if i < 0 then i + xs.length else i
  xs.set j.toNat v

/-- Python string subscript `s[i]`; `Option.none` models IndexError. -/
def strIndex (s : String) (i : Int) : Option Char :=
  let j : Int := if i < 0 then i + s.length else i
  if 0 ≤ j ∧ j < (s.length : Int) then some (s.toList.getD j.toNat ' ') else Option.none

/-- `merge_fields` (util.py lines 14–19).

For each `key, value` of `source`, in insertion order:
* a string `value` runs `target[key] += value` — Python augmented
  assignment, which concatenates when the slot holds a string, extends the
  list in place with the string's characters when the slot holds a list,
  raises TypeError on any other slot type, and raises KeyError before
  writing anything when the key is absent;
* a non-None dict `value` recurses into `target[key]` (KeyError when the
  key is absent, TypeError when `target` itself is not a dict); the slot
  mutated so far is observed by the caller even when the recursive call
  raises, since mutation is in place;
* every other value (None, numbers, bools, lists) is skipped.

The returned pair is the state of `target` when the call returns or when
the exception propagates, together with the exception if one was raised. -/
def mergeFields : PyVal → List (String × PyVal) → PyVal × Option PyErr
  | target, [] => (target, Option.none)
  | target, (key, value) :: rest =>
    match value with
    | .str s =>
      match target with
      | .dict fs =>
        match lookupKey fs key with
        | some (.str t) => mergeFields (.dict (updateKey fs key (.str (t ++ s)))) rest
        | some (.list xs) => mergeFields (.dict (updateKey fs key (.list (xs ++ strElems s)))) rest
        | some _ => (target, some .typeError)
        | Option.none => (target, some .keyError)
      | _ => (target, some .typeError)
    | .dict sub =>
      match target with
      | .dict fs =>
        match lookupKey fs key with
        | some slot =>
          match mergeFields slot sub with
          | (slot2, some e) => (.dict (updateKey fs key slot2), some e)
          | (slot2, Option.none) => mergeFields (.dict (updateKey fs key slot2)) rest
        | Option.none => (target, some .keyError)
      | _ => (target, some .typeError)
    | _ => mergeFields target rest

/-- `merge_chunk` (util.py lines 22–29).

```
delta.pop("role", None)
merge_fields(final_response, delta)
tool_calls = delta.get("tool_calls")
if tool_calls and len(tool_calls) > 0:
    index = tool_calls[0].pop("index")
    merge_fields(final_response["tool_calls"][index], tool_calls[0])
```

The result is the state of `final_response`, the state of `delta` (which
the source mutates: the `role` key is popped, and the first tool-call
entry's `index` key is popped), and the propagated exception if any.
`final_response["tool_calls"][index]` is evaluated per Python subscript
semantics on each modelled container shape; merging into an immutable
string slot leaves the accumulator untouched. -/
def mergeChunk (finalResponse : PyVal) (delta : List (String × PyVal)) :
    PyVal × List (String × PyVal) × Option PyErr :=
  let dfs := eraseKey delta "role"
  match mergeFields finalResponse dfs with
  | (final1, some e) => (final1, dfs, some e)
  | (final1, Option.none) =>
    match lookupKey dfs "tool_calls" with
    | Option.none => (final1, dfs, Option.none)
    | some tc =>
      if truthy tc then
        match pyLen tc with
        | Option.none => (final1, dfs, some .typeError)
        | some n =>
          if 0 < n then
            match tc with
            | .list (first :: restTc) =>
              match first with
              | .dict efs =>
                match lookupKey efs "index" with
                | Option.none => (final1, dfs, some .keyError)
                | some idxV =>
                  let efs2 := eraseKey efs "index"
                  let dfs2 := updateKey dfs "tool_calls" (.list (.dict efs2 :: restTc))
                  match final1 with
                  | .dict ffs =>
                    match lookupKey ffs "tool_calls" with
                    | Option.none => (final1, dfs2, some .keyError)
                    | some (.list xs) =>
                      match idxV with
                      | .int i =>
                        match listIndex xs i with
                        | Option.none => (final1, dfs2, some .indexError)
                        | some slot =>
                          match mergeFields slot efs2 with
                          | (slot2, e2) =>
                            (.dict (updateKey ffs "tool_calls" (.list (listSet xs i slot2))),
                             dfs2, e2)
                      | _ => (final1, dfs2, some .typeError)
                    | some (.str s2) =>
                      match idxV with
                      | .int i =>
                        match strIndex s2 i with
                        | Option.none => (final1, dfs2, some .indexError)
                        | some c =>
                          match mergeFields (.str (String.singleton c)) efs2 with
                          | (_, e2) => (final1, dfs2, e2)
                      | _ => (final1, dfs2, some .typeError)
                    | some (.dict gfs) =>
                      match idxV with
                      | .str k2 =>
                        match lookupKey gfs k2 with
                        | Option.none => (final1, dfs2, some .keyError)
                        | some slot =>
                          match mergeFields slot efs2 with
                          | (slot2, e2) =>
                            (.dict (updateKey ffs "tool_calls" (.dict (updateKey gfs k2 slot2))),
                             dfs2, e2)
                      | _ => (final1, dfs2, some .keyError)
                    | some _ => (final1, dfs2, some .typeError)
                  | _ => (final1, dfs2, some .typeError)
              | .list _ => (final1, dfs, some .typeError)
              | _ => (final1, dfs, some .attrError)
            | .str _ => (final1, dfs, some .attrError)
            | .dict _ => (final1, dfs, some .keyError)
            | _ => (final1, dfs, some .typeError)
          else (final1, dfs, Option.none)
      else (final1, dfs, Option.none)

/-
SchemaBuilder: `function_to_json` (util.py lines 33–142) and its inner
`parse_type` (lines 55–108).

A parameter annotation is modelled by `Ann`.  The seven bare classes of
`type_map` (lines 45–53) are the atomic constructors; `listOf args`,
`dictOf args` and `union args` model annotations whose `get_origin` is
`list`/`List`, `dict`/`Dict` and `Union`, with `args` the result of
`get_args`; `other` models any further annotation with no origin (a custom
class, a module object, ...), which falls through to the `type_map.get`
default.  JSON fragments produced by `parse_type` are modelled by `Json`
(only strings, booleans, lists and dicts occur in its output).
-/

inductive Ann where
  | str
  | int
  | float
  | bool
  | list
  | dict
  | nonetype
  | listOf (args : List Ann)
  | dictOf (args : List Ann)
  | union (args : List Ann)
  | other
deriving Repr

inductive Json where
  | str (s : String)
  | bool (b : Bool)
  | arr (xs : List Json)
  | obj (fields : List (String × Json))
deriving Repr

/-- `arg is not type(None)` / `type(None) in args` compare against the
one `NoneType` class by identity; only the `nonetype` annotation matches. -/
def isNone : Ann → Bool
  | .nonetype => true
  | _ => false

/-- Python truthiness of the modelled JSON fragments (`if items:` on
line 82). -/
def jsonTruthy : Json → Bool
  | .str s => !s.isEmpty
  | .bool b => b
  | .arr xs => !xs.isEmpty
  | .obj fs => !fs.isEmpty

/-- Equality as used by `set()` on the collected type names: the elements
reaching `list(set(types))` on line 80 are Python strings (any non-string
there would be unhashable in the source and raise before comparing). -/
def jsonStrEq : Json → Json → Bool
  | .str a, .str b => a == b
  | _, _ => false

/-- `list(set(types))` (line 80): duplicate removal.  CPython's set
iteration order is unspecified (hash-based), so the embedding fixes the
first-occurrence order as its determinization; the theorems below only
inspect this list where the order is irrelevant (singleton lists or
set-membership statements). -/
def pyDedup : List Json → List Json
  | [] => []
  | x :: xs => x :: pyDedup (xs.filter (fun y => !jsonStrEq x y))
termination_by l => l.length
decreasing_by
  simp only [List.length_cons]
  exact Nat.lt_succ_of_le (List.length_filter_le _ _)

/-- `type_map` (lines 45–53): the fixed primitive table, `Option.none`
for annotations outside it (`.get`'s default is applied at the use site,
line 108). -/
def typeMap : Ann → Option String
  | .str => some "string"
  | .int => some "integer"
  | .float => some "number"
  | .bool => some "boolean"
  | .list => some "array"
  | .dict => some "object"
  | .nonetype => some "null"
  | _ => Option.none

/-- The type-name the general union loop collects for one parsed member:
`parsed.get("type", "string")` on line 74 when the parsed value is a
dict, the literal `"string"` of line 78 otherwise. -/
def jsonTypeName : Json → Json
  | .obj fields => (lookupKey fields "type").getD (.str "string")
  | _ => .str "string"

/-- The `items` value line 76 records for one parsed member: present
exactly when `parsed.get("type") == "array"` and `"items" in parsed`
(line 75), absent otherwise (also when the parsed value is not a dict). -/
def jsonArrayItems : Json → Option Json
  | .obj fields =>
    match lookupKey fields "type", lookupKey fields "items" with
    | some (.str "array"), some it => some it
    | _, _ => Option.none
  | _ => Option.none

/-- One iteration of the general union loop (lines 71–78): append the
member's collected type name to `types` and overwrite the `items` slot
when the member parsed to an array fragment carrying an `items` key —
the unconditional re-assignment on line 76 is what makes the last such
member win. -/
def unionStep (acc : List Json × Option Json) (p : Ann × Json) :
    List Json × Option Json :=
  (acc.1 ++ [jsonTypeName p.2], (jsonArrayItems p.2).or acc.2)

mutual

/-- `parse_type` (lines 55–108).

* `Union` origin (lines 59–84): if `NoneType` is a member and exactly one
  non-`NoneType` member exists, parse it and, when the parsed fragment is
  a dict with a `"type"` key, set `"nullable": True` on it and return it;
  otherwise fall through to the general loop, which collects each member's
  `"type"` name (default `"string"`), keeps overwriting `items` with the
  `items` of each member that parsed to an array fragment carrying an
  `items` key, deduplicates the names with `set()`, and attaches the
  final `items` when truthy.
* `list`/`List` origin (lines 86–92): the first argument's `"type"` name
  (default `"string"`) becomes `items.type`.
* `dict`/`Dict` origin (lines 94–105): with exactly two arguments the
  parsed value type becomes `additionalProperties`, else the default
  `{"type": "string"}`.
* anything else (lines 107–108): `type_map.get(annotation, "string")`.

The source re-invokes `parse_type` on members; as the function is pure,
the embedding computes each member's parse once via `parseTypePairs` and
reuses it. -/
def parseType : Ann → Json
  | .union args =>
    let pairs := parseTypePairs args
    let nullablePath : Option Json :=
      if args.any isNone then
        match pairs.filter (fun p => !isNone p.1) with
        | [p] =>
          match p.2 with
          | .obj fields =>
            if containsKey fields "type" then
              some (.obj (setKey fields "nullable" (.bool true)))
            else Option.none
          | _ => Option.none
        | _ => Option.none
      else Option.none
    match nullablePath with
    | some r => r
    | Option.none =>
      let res := pairs.foldl unionStep ([], Option.none)
      let types := pyDedup res.1
      match res.2 with
      | some it =>
        if jsonTruthy it then .obj [("type", .arr types), ("items", it)]
        else .obj [("type", .arr types)]
      | Option.none => .obj [("type", .arr types)]
  | .listOf args =>
    match args with
    | [] => .obj [("type", .str "array"), ("items", .obj [("type", .str "string")])]
    | a :: _ =>
      let itemsType :=
        match parseType a with
        | .obj fields => (lookupKey fields "type").getD (.str "string")
        | _ => Json.str "string"
      .obj [("type", .str "array"), ("items", .obj [("type", itemsType)])]
  | .dictOf args =>
    match args with
    | [_, v] =>
      match parseType v with
      | .obj fields => .obj [("type", .str "object"), ("additionalProperties", .obj fields)]
      | _ => .obj [("type", .str "object"),
                   ("additionalProperties", .obj [("type", .str "string")])]
    | _ => .obj [("type", .str "object"),
                 ("additionalProperties", .obj [("type", .str "string")])]
  | a => .obj [("type", .str ((typeMap a).getD "string"))]

/-- Each union member paired with its parse (the source calls
`parse_type(arg)` on each; `parse_type` is pure). -/
def parseTypePairs : List Ann → List (Ann × Json)
  | [] => []
  | a :: as => (a, parseType a) :: parseTypePairs as

end

/-- The type-name string the general union loop collects for a member
annotation (lines 74 and 78). -/
def memberTypeName (a : Ann) : Json :=
  jsonTypeName (parseType a)

/-- The `items` value the general union loop records for a member
annotation: present exactly when the member parses to an array fragment
carrying an `items` key (line 75). -/
def memberArrayItems (a : Ann) : Option Json :=
  jsonArrayItems (parseType a)

/-- The `items` value that survives the general union loop: line 76
keeps overwriting it, so it is the one of the last member that parsed to
an array fragment carrying an `items` key, `Option.none` when no member
did. -/
def lastArrayItems (args : List Ann) : Option Json :=
  args.foldl (fun acc a => (memberArrayItems a).or acc) Option.none

/-- One reflected parameter of a callable's signature: its name, its
declared annotation (`Option.none` models `inspect.Parameter.empty`) and
whether the declaration carries a default value. -/
structure Param where
  name : String
  annotation : Option Ann
  hasDefault : Bool

/-- Lines 117–123: the fragment stored in `parameters` for one parameter —
`{"type": "string"}` when unannotated, `parse_type(annotation)` otherwise. -/
def paramSchema (p : Param) : Json :=
  match p.annotation with
  | Option.none => .obj [("type", .str "string")]
  | some a => parseType a

/-- `function_to_json` (lines 33–142), given the reflected signature: the
callable's name, its docstring (`func.__doc__ or ""`, line 135) and its
parameters in declaration order.  The `ValueError` path (lines 110–115)
concerns callables whose signature cannot be reflected at all and is
outside the modelled state space, which starts from a reflected
signature. -/
def functionToJson (name : String) (doc : Option String) (params : List Param) : Json :=
  .obj [("type", .str "function"),
        ("function", .obj [
          ("name", .str name),
          ("description", .str (doc.getD "")),
          ("parameters", .obj [
            ("type", .str "object"),
            ("properties", .obj (params.map fun p => (p.name, paramSchema p))),
            ("required", .arr ((params.filter fun p => !p.hasDefault).map
                                 fun p => .str p.name))])])]

/-- The `parameters` object of a tool descriptor (empty when the document
does not have the descriptor shape). -/
def descriptorParams (j : Json) : List (String × Json) :=
  match j with
  | .obj fs =>
    match lookupKey fs "function" with
    | some (.obj gs) =>
      match lookupKey gs "parameters" with
      | some (.obj ps) => ps
      | _ => []
    | _ => []
  | _ => []

/-- The `properties` mapping of a tool descriptor. -/
def descriptorProperties (j : Json) : List (String × Json) :=
  match lookupKey (descriptorParams j) "properties" with
  | some (.obj fs) => fs
  | _ => []

/-- The `required` list of a tool descriptor. -/
def descriptorRequired (j : Json) : List Json :=
  match lookupKey (descriptorParams j) "required" with
  | some (.arr xs) => xs
  | _ => []

/-
Auxiliary notions used by the theorems below (defined over the embedding,
not taken from the source).
-/

mutual

/-- One-call frame relation of the merger on the accumulator: every dict
keeps exactly its keys, in order, with related values; every list keeps
its existing entries related pointwise and can only gain trailing entries
(Python `list += string` extends in place); strings stay strings; every
other scalar is unchanged. -/
def keyFrame : PyVal → PyVal → Bool
  | .str _, .str _ => true
  | .int a, .int b => a == b
  | .bool a, .bool b => a == b
  | .none, .none => true
  | .list xs, .list ys => keyFramePrefix xs ys
  | .dict fs, .dict gs => keyFrameFields fs gs
  | _, _ => false

/-- `keyFrame` pointwise on the first list, allowing the second list to be
longer. -/
def keyFramePrefix : List PyVal → List PyVal → Bool
  | [], _ => true
  | _ :: _, [] => false
  | x :: xs, y :: ys => keyFrame x y && keyFramePrefix xs ys

/-- `keyFrame` on dict entries: same keys in the same order, related
values. -/
def keyFrameFields : List (String × PyVal) → List (String × PyVal) → Bool
  | [], [] => true
  | [], _ :: _ => false
  | _ :: _, [] => false
  | (k1, v1) :: fs, (k2, v2) :: gs => k1 == k2 && keyFrame v1 v2 && keyFrameFields fs gs

end

/-- The delta mutation `merge_chunk` performs besides popping `"role"`:
when the delta's `tool_calls` value is a list whose first entry is a dict,
that entry loses its `"index"` key. -/
def popIndexFirstToolCall (d : List (String × PyVal)) : List (String × PyVal) :=
  match lookupKey d "tool_calls" with
  | some (.list (.dict efs :: rest)) =>
    updateKey d "tool_calls" (.list (.dict (eraseKey efs "index") :: rest))
  | _ => d

/-
Theorems.  Shared helper lemmas come first; the claim theorems follow.
-/

/-- Claim C1, counterexample: merging the delta `{content: "ell"}` into an
accumulator that lacks the key `content` is not treated as append-to-empty —
`merge_fields` raises KeyError and after the call the accumulator still
does not hold that key (line 17 reads `target[key]` before writing). -/
theorem mergeFields_absent_key_cex :
    mergeFields (.dict [("other", .str "H")]) [("content", .str "ell")]
      = (.dict [("other", .str "H")], some PyErr.keyError)
    ∧ lookupKey [("other", PyVal.str "H")] "content" = Option.none := by
  exact ⟨rfl, rfl⟩

/-- Claim C1 (amended): for a delta field holding a string, `merge_fields`
appends that string to the string stored at the same key of the
accumulator when the key is present with a string value; when the key is
absent the call raises KeyError and leaves the accumulator unchanged, so
there is no append-to-empty for missing keys. -/
theorem mergeFields_string_append (fs : List (String × PyVal)) (k a b : String) :
    (lookupKey fs k = some (.str a) →
      mergeFields (.dict fs) [(k, .str b)]
        = (.dict (updateKey fs k (.str (a ++ b))), Option.none))
    ∧ (lookupKey fs k = Option.none →
      mergeFields (.dict fs) [(k, .str b)] = (.dict fs, some PyErr.keyError)) := by
  constructor
  · intro h
    simp [mergeFields, h]
  · intro h
    simp [mergeFields, h]

/-- Witness for `mergeFields_string_append` at the spec's example:
merging `{content: "ell"}` into `{content: "H"}` yields
`{content: "Hell"}`. -/
theorem mergeFields_string_append_witness :
    mergeFields (.dict [("content", .str "H")]) [("content", .str "ell")]
      = (.dict [("content", .str "Hell")], Option.none) := by
  have h := (mergeFields_string_append [("content", .str "H")] "content" "H" "ell").1
    (by simp [lookupKey])
  simpa [updateKey] using h

/-- Claim C2, counterexample: a tool-call fragment addressed at index 0
while the accumulator's `tool_calls` sequence is empty is not
auto-extended — `merge_chunk` stops with IndexError (the out-of-bounds
fault of `final_response["tool_calls"][index]`, line 29) and the sequence
stays empty; no `MergeError` exists anywhere in the module. -/
theorem mergeChunk_oob_index_cex :
    mergeChunk (.dict [("tool_calls", .list [])])
        [("tool_calls", .list [.dict [("index", .int 0), ("id", .str "x")]])]
      = (.dict [("tool_calls", .list [])],
         [("tool_calls", .list [.dict [("id", .str "x")]])],
         some PyErr.indexError) := rfl

/-- Claim C2 (amended): whenever the delta's first tool-call entry is
addressed by an index greater than or equal to the length of the
accumulator's `tool_calls` list, `merge_chunk` raises IndexError — an
out-of-bounds fault — without extending the sequence and without touching
the accumulator; the delta has still lost the entry's `index` key.  (A
negative index within `-len..-1` is resolved from the end by Python list
indexing rather than rejected.) -/
theorem mergeChunk_oob_index_raises (ffs : List (String × PyVal)) (xs : List PyVal)
    (i : Int) (efs : List (String × PyVal)) (rest : List PyVal)
    (htc : lookupKey ffs "tool_calls" = some (.list xs))
    (hi : (xs.length : Int) ≤ i) :
    mergeChunk (.dict ffs)
        [("tool_calls", .list (.dict (("index", .int i) :: efs) :: rest))]
      = (.dict ffs,
         [("tool_calls", .list (.dict efs :: rest))],
         some PyErr.indexError) := by
  have h0 : ¬ i < 0 := by omega
  have h2 : ¬ (0 ≤ i ∧ i < (xs.length : Int)) := by omega
  simp [mergeChunk, mergeFields, eraseKey, lookupKey, updateKey, truthy, pyLen,
        listIndex, htc, h0, h2]

/-- Witness for `mergeChunk_oob_index_raises`: index 2 against a
one-entry `tool_calls` list raises IndexError and extends nothing. -/
theorem mergeChunk_oob_index_raises_witness :
    mergeChunk (.dict [("tool_calls", .list [.dict [("f", .str "q")]])])
        [("tool_calls", .list [.dict [("index", .int 2), ("g", .str "h")]])]
      = (.dict [("tool_calls", .list [.dict [("f", .str "q")]])],
         [("tool_calls", .list [.dict [("g", .str "h")]])],
         some PyErr.indexError) := by
  exact mergeChunk_oob_index_raises [("tool_calls", .list [.dict [("f", .str "q")]])]
    [.dict [("f", .str "q")]] 2 [("g", .str "h")] [] (by simp [lookupKey]) (by simp)

/-- Claim C3: for a delta carrying a non-empty `tool_calls` sequence,
`merge_chunk` processes exactly the first entry — it removes the entry's
`index` key (mutating the delta) and merges the entry's remaining fields
into the accumulator's `tool_calls` entry at that index — and every other
tool-call position is unchanged (`List.set` at `i` leaves every `j ≠ i`
as it was); later entries of the delta's sequence are ignored (`rest` is
arbitrary and unused). -/
theorem mergeChunk_first_tool_call_routing (ffs : List (String × PyVal)) (xs : List PyVal)
    (i : Nat) (efs : List (String × PyVal)) (rest : List PyVal) (slot2 : PyVal)
    (htc : lookupKey ffs "tool_calls" = some (.list xs))
    (hi : i < xs.length)
    (hm : mergeFields (xs.getD i .none) efs = (slot2, Option.none)) :
    mergeChunk (.dict ffs)
        [("tool_calls", .list (.dict (("index", .int i) :: efs) :: rest))]
      = (.dict (updateKey ffs "tool_calls" (.list (xs.set i slot2))),
         [("tool_calls", .list (.dict efs :: rest))],
         Option.none)
    ∧ ∀ j, j ≠ i → (xs.set i slot2).getD j PyVal.none = xs.getD j PyVal.none := by
  have h0 : ¬ (i : Int) < 0 := by omega
  have h2 : (0 ≤ (i : Int) ∧ (i : Int) < (xs.length : Int)) := by omega
  constructor
  · simp only [List.getD_eq_getElem?_getD] at hm
    simp [mergeChunk, mergeFields, eraseKey, lookupKey, updateKey, truthy, pyLen,
          listIndex, listSet, htc, h0, h2, hm]
  · intro j hj
    simp [List.getElem?_set_ne (by omega : i ≠ j)]

/-- Witness for `mergeChunk_first_tool_call_routing` at the spec's
example: merging `{tool_calls: [{index: 1, function: {arguments: "go"}}]}`
into an accumulator whose `tool_calls[1].function.arguments` is `"ar"`
yields `"argo"` at position 1 while `tool_calls[0]` is unchanged. -/
theorem mergeChunk_first_tool_call_routing_witness :
    mergeChunk
        (.dict [("tool_calls",
                 .list [.dict [("id", .str "call0")],
                        .dict [("function", .dict [("arguments", .str "ar")])]])])
        [("tool_calls",
          .list [.dict [("index", .int 1),
                        ("function", .dict [("arguments", .str "go")])]])]
      = (.dict [("tool_calls",
                 .list [.dict [("id", .str "call0")],
                        .dict [("function", .dict [("arguments", .str "argo")])]])],
         [("tool_calls", .list [.dict [("function", .dict [("arguments", .str "go")])]])],
         Option.none) := by
  have h := (mergeChunk_first_tool_call_routing
    [("tool_calls", .list [.dict [("id", .str "call0")],
                           .dict [("function", .dict [("arguments", .str "ar")])]])]
    [.dict [("id", .str "call0")], .dict [("function", .dict [("arguments", .str "ar")])]]
    1 [("function", .dict [("arguments", .str "go")])] []
    (.dict [("function", .dict [("arguments", .str "argo")])])
    (by simp [lookupKey]) (by simp)
    (by simp [mergeFields, lookupKey, updateKey])).1
  simpa [updateKey, lookupKey] using h

/-- Claim C5, counterexample: `merge_chunk` is not free of side effects on
`delta` — line 23 pops the `role` key from the caller's delta, so after
merging `{role: "assistant", content: "o"}` the delta object has lost its
`role` entry and differs from the delta that was passed in. -/
theorem mergeChunk_mutates_delta_cex :
    (mergeChunk (.dict [("content", .str "Hell")])
        [("role", .str "assistant"), ("content", .str "o")]).2.1
      = [("content", PyVal.str "o")]
    ∧ [("content", PyVal.str "o")]
        ≠ [("role", PyVal.str "assistant"), ("content", PyVal.str "o")] := by
  exact ⟨rfl, by simp⟩

/-- Claim C5 (amended): besides the declared accumulator mutation,
`merge_chunk` mutates the delta, and only in two ways — the `role` key is
removed (line 23), and when the routing branch reaches the pop on line 28
the first tool-call entry loses its `index` key; after every call the
delta is one of exactly these two shapes. -/
theorem mergeChunk_delta_mutation (final : PyVal) (delta : List (String × PyVal)) :
    (mergeChunk final delta).2.1 = eraseKey delta "role"
    ∨ (mergeChunk final delta).2.1 = popIndexFirstToolCall (eraseKey delta "role") := by
  simp only [mergeChunk]
  repeat' split
  all_goals first
    | (left; rfl)
    | (right; simp_all [popIndexFirstToolCall])

/-- Claim C6, counterexample: a merge call is not atomic.  Merging
`{a: "x", b: "y"}` into `{a: ""}` reports KeyError (for `b`) yet has
already applied the field `a` — the accumulator left behind differs from
the one passed in, so a proper subset of the delta's fields was applied
while an error was reported. -/
theorem mergeChunk_partial_update_cex :
    mergeChunk (.dict [("a", .str "")]) [("a", .str "x"), ("b", .str "y")]
      = (.dict [("a", .str "x")],
         [("a", .str "x"), ("b", .str "y")],
         some PyErr.keyError)
    ∧ PyVal.dict [("a", PyVal.str "x")] ≠ PyVal.dict [("a", PyVal.str "")] := by
  exact ⟨rfl, by simp⟩

/-- Claim C6 (amended): a merge call applies the delta's fields strictly
left to right and stops at the first failing field — the fields before it
have been fully applied (their mutations persist) and the fields from the
failing one on have not been; it does not roll back to the pre-call
accumulator, so error reports can coexist with partially applied deltas. -/
theorem mergeFields_append (target : PyVal) (pre post : List (String × PyVal)) :
    mergeFields target (pre ++ post)
      = match mergeFields target pre with
        | (t1, Option.none) => mergeFields t1 post
        | (t1, some e) => (t1, some e) := by
  induction pre generalizing target with
  | nil => simp only [List.nil_append, mergeFields]
  | cons kv rest ih =>
    obtain ⟨key, value⟩ := kv
    rw [List.cons_append]
    cases value <;> cases target <;> simp only [mergeFields] <;> repeat' split
    all_goals simp_all [ih]

mutual

theorem keyFrame_refl : ∀ v, keyFrame v v = true
  | .str _ => rfl
  | .int a => by simp [keyFrame]
  | .bool a => by simp [keyFrame]
  | .none => rfl
  | .list xs => by simp only [keyFrame]; exact keyFramePrefix_refl xs
  | .dict fs => by simp only [keyFrame]; exact keyFrameFields_refl fs

theorem keyFramePrefix_refl : ∀ xs, keyFramePrefix xs xs = true
  | [] => rfl
  | x :: xs => by
    simp only [keyFramePrefix, Bool.and_eq_true]
    exact ⟨keyFrame_refl x, keyFramePrefix_refl xs⟩

theorem keyFrameFields_refl : ∀ fs, keyFrameFields fs fs = true
  | [] => rfl
  | (k, v) :: fs => by
    simp only [keyFrameFields, Bool.and_eq_true]
    exact ⟨⟨by simp, keyFrame_refl v⟩, keyFrameFields_refl fs⟩

end

mutual

theorem keyFrame_trans : ∀ a b c, keyFrame a b = true → keyFrame b c = true →
    keyFrame a c = true
  | .str _, b, c, h1, h2 => by
    cases b <;> simp [keyFrame] at h1 <;> cases c <;> simp [keyFrame] at h2 ⊢
  | .int x, b, c, h1, h2 => by
    cases b <;> simp [keyFrame] at h1 <;> cases c <;> simp [keyFrame] at h2 ⊢ <;> omega
  | .bool x, b, c, h1, h2 => by
    cases b <;> simp [keyFrame] at h1 <;> cases c <;> simp [keyFrame] at h2 ⊢ <;> simp [h1, h2]
  | .none, b, c, h1, h2 => by
    cases b <;> simp [keyFrame] at h1 <;> cases c <;> simp [keyFrame] at h2 ⊢
  | .list xs, b, c, h1, h2 => by
    cases b with
    | list ys =>
      cases c with
      | list zs =>
        simp only [keyFrame] at h1 h2 ⊢
        exact keyFramePrefix_trans xs ys zs h1 h2
      | _ => simp [keyFrame] at h2
    | _ => simp [keyFrame] at h1
  | .dict fs, b, c, h1, h2 => by
    cases b with
    | dict gs =>
      cases c with
      | dict hs =>
        simp only [keyFrame] at h1 h2 ⊢
        exact keyFrameFields_trans fs gs hs h1 h2
      | _ => simp [keyFrame] at h2
    | _ => simp [keyFrame] at h1

theorem keyFramePrefix_trans : ∀ xs ys zs, keyFramePrefix xs ys = true →
    keyFramePrefix ys zs = true → keyFramePrefix xs zs = true
  | [], _, _, _, _ => rfl
  | x :: xs, ys, zs, h1, h2 => by
    cases ys with
    | nil => simp [keyFramePrefix] at h1
    | cons y ys =>
      cases zs with
      | nil => simp [keyFramePrefix] at h2
      | cons z zs =>
        simp only [keyFramePrefix, Bool.and_eq_true] at h1 h2 ⊢
        exact ⟨keyFrame_trans x y z h1.1 h2.1, keyFramePrefix_trans xs ys zs h1.2 h2.2⟩

theorem keyFrameFields_trans : ∀ fs gs hs, keyFrameFields fs gs = true →
    keyFrameFields gs hs = true → keyFrameFields fs hs = true
  | [], gs, hs, h1, h2 => by
    cases gs with
    | nil =>
      cases hs with
      | nil => rfl
      | cons g hs2 => simp [keyFrameFields] at h2
    | cons g gs => simp [keyFrameFields] at h1
  | (k1, v1) :: fs, gs, hs, h1, h2 => by
    cases gs with
    | nil => simp [keyFrameFields] at h1
    | cons g gs =>
      obtain ⟨k2, v2⟩ := g
      cases hs with
      | nil => simp [keyFrameFields] at h2
      | cons h hs =>
        obtain ⟨k3, v3⟩ := h
        simp only [keyFrameFields, Bool.and_eq_true, beq_iff_eq] at h1 h2 ⊢
        exact ⟨⟨h1.1.1.trans h2.1.1, keyFrame_trans v1 v2 v3 h1.1.2 h2.1.2⟩,
               keyFrameFields_trans fs gs hs h1.2 h2.2⟩

end

theorem keyFrameFields_updateKey (fs : List (String × PyVal)) (k : String) (v w : PyVal)
    (hl : lookupKey fs k = some v) (hf : keyFrame v w = true) :
    keyFrameFields fs (updateKey fs k w) = true := by
  induction fs with
  | nil => simp [lookupKey] at hl
  | cons kv rest ih =>
    obtain ⟨k1, v1⟩ := kv
    by_cases hk : k1 == k
    · simp only [lookupKey, if_pos hk] at hl
      injection hl with hl
      subst hl
      simp only [updateKey, if_pos hk, keyFrameFields, Bool.and_eq_true]
      exact ⟨⟨by simp, hf⟩, keyFrameFields_refl rest⟩
    · simp only [lookupKey, if_neg hk] at hl
      simp only [updateKey, if_neg hk, keyFrameFields, Bool.and_eq_true]
      exact ⟨⟨by simp, keyFrame_refl v1⟩, ih hl⟩

theorem keyFramePrefix_append (xs ys : List PyVal) :
    keyFramePrefix xs (xs ++ ys) = true := by
  induction xs with
  | nil => rfl
  | cons x xs ih =>
    simp only [List.cons_append, keyFramePrefix, Bool.and_eq_true]
    exact ⟨keyFrame_refl x, ih⟩

theorem keyFramePrefix_set (xs : List PyVal) (n : Nat) (w : PyVal)
    (h : keyFrame (xs.getD n PyVal.none) w = true) :
    keyFramePrefix xs (xs.set n w) = true := by
  induction xs generalizing n with
  | nil => rfl
  | cons x xs ih =>
    cases n with
    | zero =>
      simp only [List.set, keyFramePrefix, Bool.and_eq_true]
      exact ⟨by simpa using h, keyFramePrefix_refl xs⟩
    | succ n =>
      simp only [List.set, keyFramePrefix, Bool.and_eq_true]
      exact ⟨keyFrame_refl x, ih n (by simpa using h)⟩

theorem listIndex_elim (xs : List PyVal) (i : Int) (slot : PyVal)
    (h : listIndex xs i = some slot) :
    ∃ n, n < xs.length ∧ slot = xs.getD n PyVal.none
      ∧ ∀ w, listSet xs i w = xs.set n w := by
  unfold listIndex at h
  unfold listSet
  by_cases hc : 0 ≤ (if i < 0 then i + xs.length else i)
      ∧ (if i < 0 then i + xs.length else i) < (xs.length : Int)
  · rw [if_pos hc] at h
    injection h with h
    refine ⟨(if i < 0 then i + xs.length else i).toNat, by omega, h.symm, fun w => rfl⟩
  · rw [if_neg hc] at h
    exact absurd h (by simp)

theorem mergeFields_keyFrame (target : PyVal) (src : List (String × PyVal)) :
    keyFrame target (mergeFields target src).1 = true := by
  induction target, src using mergeFields.induct with
  | case1 target => simp [mergeFields, keyFrame_refl]
  | case2 key rest s fs t hl ih =>
    rw [mergeFields.eq_2, hl]
    refine keyFrame_trans _ _ _ ?_ ih
    simp only [keyFrame]
    exact keyFrameFields_updateKey fs key _ _ hl rfl
  | case3 key rest s fs xs hl ih =>
    rw [mergeFields.eq_2, hl]
    refine keyFrame_trans _ _ _ ?_ ih
    simp only [keyFrame]
    exact keyFrameFields_updateKey fs key _ _ hl
      (by simp only [keyFrame]; exact keyFramePrefix_append xs (strElems s))
  | case4 key rest s fs val hs hxs hl =>
    rw [mergeFields.eq_2, hl]
    match val, hs, hxs with
    | .int _, _, _ => exact keyFrame_refl _
    | .bool _, _, _ => exact keyFrame_refl _
    | .none, _, _ => exact keyFrame_refl _
    | .dict _, _, _ => exact keyFrame_refl _
    | .str t, hs, _ => exact absurd rfl (hs t)
    | .list xs, _, hxs => exact absurd rfl (hxs xs)
  | case5 key rest s fs hl =>
    rw [mergeFields.eq_2, hl]
    exact keyFrame_refl _
  | case6 target key rest s hnd =>
    rw [mergeFields.eq_3 target key rest s hnd]
    exact keyFrame_refl _
  | case7 key rest sub fs slot hl slot2 e hms ih =>
    simp only [mergeFields.eq_4, hl, hms]
    simp only [keyFrame]
    refine keyFrameFields_updateKey fs key _ _ hl ?_
    rw [hms] at ih
    exact ih
  | case8 key rest sub fs slot hl slot2 hms ih1 ih2 =>
    simp only [mergeFields.eq_4, hl, hms]
    refine keyFrame_trans _ _ _ ?_ ih2
    simp only [keyFrame]
    refine keyFrameFields_updateKey fs key _ _ hl ?_
    rw [hms] at ih1
    exact ih1
  | case9 key rest sub fs hl =>
    simp only [mergeFields.eq_4, hl]
    exact keyFrame_refl _
  | case10 target key rest sub hnd =>
    rw [mergeFields.eq_5 target key rest sub hnd]
    exact keyFrame_refl _
  | case11 target key value rest hs hd ih =>
    rw [mergeFields.eq_6 target key value rest hs hd]
    exact ih

/-- Claim C10 (amended): every merge call — raising or not — preserves the
key set of every object of the accumulator (no key is ever inserted:
lines 17 and 19 read `target[key]` first, and line 29 only replaces an
existing position); lists keep their existing entries pointwise-related
and can only gain trailing entries, which happens exactly when a
string-valued delta field lands on a list-valued accumulator slot (Python
`list += string` extends in place). -/
theorem mergeChunk_keyFrame (final : PyVal) (delta : List (String × PyVal)) :
    keyFrame final (mergeChunk final delta).1 = true := by
  simp only [mergeChunk]
  rcases hmf : mergeFields final (eraseKey delta "role") with ⟨final1, e1⟩
  have kf1 : keyFrame final final1 = true := by
    have h := mergeFields_keyFrame final (eraseKey delta "role")
    rw [hmf] at h
    exact h
  cases e1 with
  | some e => exact kf1
  | none =>
    rcases hlk : lookupKey (eraseKey delta "role") "tool_calls" with _ | tc
    · exact kf1
    · try simp only []
      cases htv : truthy tc with
      | false => simp [htv]; exact kf1
      | true =>
        simp only [htv, if_true]
        cases tc with
        | str s => simp only [pyLen]; split <;> exact kf1
        | dict fs2 => simp only [pyLen]; split <;> exact kf1
        | int n => simp only [pyLen]; exact kf1
        | bool b => simp only [pyLen]; exact kf1
        | none => simp [truthy] at htv
        | list xs0 =>
          cases xs0 with
          | nil => simp [truthy] at htv
          | cons first restTc =>
            simp only [pyLen, List.length_cons]
            rw [if_pos (Nat.succ_pos _)]
            cases first with
            | list l2 => exact kf1
            | str s => exact kf1
            | int n => exact kf1
            | bool b => exact kf1
            | none => exact kf1
            | dict efs =>
              try simp only []
              rcases hix : lookupKey efs "index" with _ | idxV
              · exact kf1
              · try simp only []
                cases final1 with
                | str s => exact kf1
                | int n => exact kf1
                | bool b => exact kf1
                | none => exact kf1
                | list l3 => exact kf1
                | dict ffs =>
                  try simp only []
                  rcases htc2 : lookupKey ffs "tool_calls" with _ | tcv
                  · exact kf1
                  · try simp only []
                    cases tcv with
                    | int n => exact kf1
                    | bool b => exact kf1
                    | none => exact kf1
                    | str s2 =>
                      cases idxV with
                      | int i => try simp only []; cases strIndex s2 i <;> exact kf1
                      | str s3 => exact kf1
                      | bool b => exact kf1
                      | none => exact kf1
                      | list l4 => exact kf1
                      | dict d4 => exact kf1
                    | list xs =>
                      cases idxV with
                      | str s3 => exact kf1
                      | bool b => exact kf1
                      | none => exact kf1
                      | list l4 => exact kf1
                      | dict d4 => exact kf1
                      | int i =>
                        try simp only []
                        rcases hli : listIndex xs i with _ | slot
                        · exact kf1
                        · try simp only []
                          obtain ⟨n, hn, hslot, hset⟩ := listIndex_elim xs i slot hli
                          rcases hms : mergeFields slot (eraseKey efs "index")
                            with ⟨slot2, e2⟩
                          have ks : keyFrame slot slot2 = true := by
                            have h := mergeFields_keyFrame slot (eraseKey efs "index")
                            rw [hms] at h
                            exact h
                          refine keyFrame_trans _ _ _ kf1 ?_
                          simp only [keyFrame]
                          refine keyFrameFields_updateKey ffs "tool_calls" _ _ htc2 ?_
                          simp only [keyFrame]
                          rw [hset]
                          refine keyFramePrefix_set xs n slot2 ?_
                          rw [← hslot]
                          exact ks
                    | dict gfs =>
                      cases idxV with
                      | int i => exact kf1
                      | bool b => exact kf1
                      | none => exact kf1
                      | list l4 => exact kf1
                      | dict d4 => exact kf1
                      | str k2 =>
                        try simp only []
                        rcases hg : lookupKey gfs k2 with _ | slot
                        · exact kf1
                        · try simp only []
                          rcases hms : mergeFields slot (eraseKey efs "index")
                            with ⟨slot2, e2⟩
                          have ks : keyFrame slot slot2 = true := by
                            have h := mergeFields_keyFrame slot (eraseKey efs "index")
                            rw [hms] at h
                            exact h
                          refine keyFrame_trans _ _ _ kf1 ?_
                          simp only [keyFrame]
                          refine keyFrameFields_updateKey ffs "tool_calls" _ _ htc2 ?_
                          simp only [keyFrame]
                          exact keyFrameFields_updateKey gfs k2 _ _ hg ks

/-- Claim C10, counterexample: a call that completes without raising can
add a new entry to a `tool_calls` sequence of the accumulator.  The delta
holds the string `"x"` at a key whose accumulator value is the empty list,
so `target[key] += value` (line 17) extends that list in place with the
string's characters — here the accumulator's nested `tool_calls` list
gains the entry `"x"` while no error is reported. -/
theorem mergeChunk_list_extend_cex :
    mergeChunk (.dict [("msg", .dict [("tool_calls", .list [])])])
        [("msg", .dict [("tool_calls", .str "x")])]
      = (.dict [("msg", .dict [("tool_calls", .list [.str "x"])])],
         [("msg", .dict [("tool_calls", .str "x")])],
         Option.none) := rfl

/-- `parseTypePairs` is the member list paired with each member's parse. -/
theorem parseTypePairs_eq_map (args : List Ann) :
    parseTypePairs args = args.map fun a => (a, parseType a) := by
  induction args with
  | nil => simp [parseTypePairs]
  | cons a as ih => simp [parseTypePairs, ih]

/-- Claim C8: for a union with `NoneType` whose non-null members are
exactly one annotation `t`, `parse_type` returns exactly the result of
parsing `t` with `nullable: true` added (in-place key assignment),
whenever parsing `t` yields an object fragment containing a `type` key
(lines 61–67). -/
theorem parseType_optional_nullable (args : List Ann) (t : Ann)
    (fields : List (String × Json))
    (hn : args.any isNone = true)
    (hf : args.filter (fun a => !isNone a) = [t])
    (hp : parseType t = .obj fields)
    (ht : containsKey fields "type" = true) :
    parseType (.union args) = .obj (setKey fields "nullable" (.bool true)) := by
  have hpairs : (parseTypePairs args).filter (fun p => !isNone p.1)
      = [(t, parseType t)] := by
    rw [parseTypePairs_eq_map, List.filter_map]
    have hcomp : ((fun p => !isNone p.1) ∘ fun a : Ann => (a, parseType a))
        = fun a => !isNone a := rfl
    rw [hcomp, hf]
    simp
  rw [parseType.eq_1]
  rw [hn]
  rw [hpairs]
  rw [hp]
  simp only [ht, if_true]

/-- Witness for `parseType_optional_nullable` at `Optional[int]`. -/
theorem parseType_optional_nullable_witness :
    parseType (.union [.int, .nonetype])
      = .obj [("type", .str "integer"), ("nullable", .bool true)] := by
  have h := parseType_optional_nullable [.int, .nonetype] .int
    [("type", Json.str "integer")] (by simp [isNone])
    (by simp [isNone]) (by simp [parseType, typeMap]) (by simp [containsKey, lookupKey])
  simpa [setKey] using h

/-- Claim C4, counterexample: in `Union[List[int], List[str]]` the union
fragment keeps the `items` of the LAST array member (`{"type":"string"}`),
not of the first one found (`{"type":"integer"}`) — line 76 re-assigns
`items` on every array member, so the claim's "first one found wins" is
false. -/
theorem parseType_union_items_first_cex :
    parseType (.union [.listOf [.int], .listOf [.str]])
      = .obj [("type", .arr [.str "array"]), ("items", .obj [("type", .str "string")])]
    ∧ parseType (.listOf [.int])
      = .obj [("type", .str "array"), ("items", .obj [("type", .str "integer")])]
    ∧ Json.obj [("type", Json.str "string")] ≠ Json.obj [("type", Json.str "integer")] := by
  refine ⟨?_, rfl, by simp⟩
  simp [parseType, parseTypePairs, typeMap, lookupKey, isNone, pyDedup,
        unionStep, jsonTypeName, jsonArrayItems, jsonStrEq, jsonTruthy,
        setKey, containsKey]

/-- jsonStrEq is sound: whenever it answers `true` the two values are equal
(it is Python `==` restricted to the string/other shapes that reach it). -/
theorem jsonStrEq_eq (a b : Json) (h : jsonStrEq a b = true) : a = b := by
  cases a <;> cases b <;> simp_all [jsonStrEq]

/-- pyDedup (the embedding of `list(set(types))`, determinized to
first-occurrence order) preserves membership exactly. -/
theorem pyDedup_mem (l : List Json) : ∀ j, j ∈ pyDedup l ↔ j ∈ l := by
  induction l using pyDedup.induct with
  | case1 => intro j; simp [pyDedup]
  | case2 x xs ih =>
    intro j
    rw [pyDedup]
    simp only [List.mem_cons]
    constructor
    · rintro (rfl | h)
      · exact Or.inl rfl
      · exact Or.inr (List.mem_filter.mp ((ih j).mp h)).1
    · rintro (rfl | h)
      · exact Or.inl rfl
      · by_cases hx : jsonStrEq x j = true
        · exact Or.inl (jsonStrEq_eq x j hx).symm
        · exact Or.inr ((ih j).mpr (List.mem_filter.mpr ⟨h, by simp [hx]⟩))

/-- pyDedup leaves no pair of elements that `jsonStrEq` identifies: its
output is duplicate-free in the sense of Python `set`. -/
theorem pyDedup_pairwise (l : List Json) :
    (pyDedup l).Pairwise (fun a b => jsonStrEq a b = false) := by
  induction l using pyDedup.induct with
  | case1 => simp [pyDedup]
  | case2 x xs ih =>
    rw [pyDedup, List.pairwise_cons]
    refine ⟨fun y hy => ?_, ih⟩
    have hm := (List.mem_filter.mp ((pyDedup_mem _ y).mp hy)).2
    simpa using hm

/-- Closed form of the union loop of lines 69–78: the accumulated `types`
list is the concatenation of every member's type name in order, and the
surviving `items` is the LAST array member's `items` (line 76 re-assigns
`items` on every array member), falling back to the initial value. -/
theorem foldl_unionStep (ps : List (Ann × Json)) (ts : List Json) (io : Option Json) :
    ps.foldl unionStep (ts, io)
      = (ts ++ ps.map (fun p => jsonTypeName p.2),
         ((ps.filterMap fun p => jsonArrayItems p.2).getLast?).or io) := by
  induction ps generalizing ts io with
  | nil => simp
  | cons p ps ih =>
    simp only [List.foldl_cons, unionStep, List.map_cons, List.filterMap_cons]
    rw [ih]
    cases h : jsonArrayItems p.2 with
    | none => simp [h]
    | some it =>
      simp only [h]
      cases hl : (ps.filterMap fun p => jsonArrayItems p.2).getLast? <;>
        simp [hl, List.getLast?_cons]

/-- lastArrayItems is literally "the last member whose parse is an array
fragment carrying an items key wins": it equals the last element of the
member-wise `items` extractions. -/
theorem lastArrayItems_eq_getLast (args : List Ann) :
    lastArrayItems args = (args.filterMap memberArrayItems).getLast? := by
  suffices h : ∀ io : Option Json,
      args.foldl (fun acc a => (memberArrayItems a).or acc) io
        = ((args.filterMap memberArrayItems).getLast?).or io by
    rw [lastArrayItems, h Option.none, Option.or_none]
  induction args with
  | nil => intro io; simp
  | cons a args ih =>
    intro io
    rw [List.foldl_cons, List.filterMap_cons]
    cases h : memberArrayItems a with
    | none => simpa [h] using ih io
    | some it =>
      simp only [h, Option.or_some]
      rw [ih (some it)]
      cases hl : (args.filterMap memberArrayItems).getLast? <;>
        simp [hl, List.getLast?_cons]

/-- Claim C4 (amended): for EVERY union annotation with more than one
non-null member (whatever the member list — `Union[int, str]`,
`Union[int, List[str]]`, any mix), parse_type returns a fragment whose
`type` is the distinct set of the members' parsed type-name strings
(membership-exact and duplicate-free, per lines 69–80; `set()` order is
unspecified, so only order-insensitive facts are stated), with the
`items` of the LAST member that parsed to an array fragment carrying an
`items` key propagated onto the fragment when truthy (last one found
wins, line 76); `lastArrayItems` is pinned to the last member-wise
extraction so the match scrutinee cannot hide a different policy. -/
theorem parseType_union_distinct_types_last_items (args : List Ann)
    (h2 : 2 ≤ (args.filter fun a => !isNone a).length)
    (hstr : ∀ a ∈ args, ∃ s, memberTypeName a = Json.str s) :
    (parseType (.union args)
      = match lastArrayItems args with
        | some it =>
          if jsonTruthy it = true then
            Json.obj [("type", Json.arr (pyDedup (args.map memberTypeName))),
                      ("items", it)]
          else Json.obj [("type", Json.arr (pyDedup (args.map memberTypeName)))]
        | Option.none =>
          Json.obj [("type", Json.arr (pyDedup (args.map memberTypeName)))])
    ∧ (∀ j, j ∈ pyDedup (args.map memberTypeName) ↔ j ∈ args.map memberTypeName)
    ∧ (pyDedup (args.map memberTypeName)).Nodup
    ∧ lastArrayItems args = (args.filterMap memberArrayItems).getLast? := by
  refine ⟨?_, pyDedup_mem _, ?_, lastArrayItems_eq_getLast args⟩
  · have hpairs : (parseTypePairs args).filter (fun p => !isNone p.1)
        = (args.filter fun a => !isNone a).map (fun a => (a, parseType a)) := by
      rw [parseTypePairs_eq_map, List.filter_map]
      have hcomp : ((fun p => !isNone p.1) ∘ fun a : Ann => (a, parseType a))
          = fun a => !isNone a := rfl
      rw [hcomp]
    have hlen : 2 ≤ ((parseTypePairs args).filter (fun p => !isNone p.1)).length := by
      rw [hpairs, List.length_map]
      exact h2
    obtain ⟨x, y, t, hxyz⟩ : ∃ x y t,
        (parseTypePairs args).filter (fun p => !isNone p.1) = x :: y :: t := by
      cases hfl : (parseTypePairs args).filter (fun p => !isNone p.1) with
      | nil =>
        rw [hfl] at hlen
        simp at hlen
      | cons x tl =>
        cases tl with
        | nil =>
          rw [hfl] at hlen
          simp at hlen
        | cons y t => exact ⟨x, y, t, rfl⟩
    rw [parseType.eq_1, hxyz]
    simp only [ite_self]
    rw [parseTypePairs_eq_map, foldl_unionStep]
    have hc1 : ((fun p => jsonTypeName p.2) ∘ fun a : Ann => (a, parseType a))
        = memberTypeName := rfl
    have hc2 : ((fun p => jsonArrayItems p.2) ∘ fun a : Ann => (a, parseType a))
        = memberArrayItems := rfl
    simp only [List.map_map, List.filterMap_map, hc1, hc2, List.nil_append,
               Option.or_none]
    rw [← lastArrayItems_eq_getLast]
  · refine List.Pairwise.imp_of_mem ?_ (pyDedup_pairwise (args.map memberTypeName))
    intro a b ha hb hab
    obtain ⟨x, hx, rfl⟩ := List.mem_map.mp ((pyDedup_mem _ a).mp ha)
    obtain ⟨y, hy, rfl⟩ := List.mem_map.mp ((pyDedup_mem _ b).mp hb)
    obtain ⟨sa, hsa⟩ := hstr x hx
    obtain ⟨sb, hsb⟩ := hstr y hy
    rw [hsa, hsb] at hab ⊢
    simp only [jsonStrEq] at hab
    simp only [ne_eq, Json.str.injEq]
    intro hcon
    rw [hcon] at hab
    simp at hab

/-- Witness for `parseType_union_distinct_types_last_items` at the mixed
union `Union[int, List[str], List[bool]]`: three non-null members, the
type set deduplicates to `["integer", "array"]`, and the LAST array
member's `items` (`{"type": "boolean"}`) is the one kept. -/
theorem parseType_union_distinct_types_last_items_witness :
    2 ≤ (([Ann.int, Ann.listOf [Ann.str], Ann.listOf [Ann.bool]].filter
          fun a => !isNone a).length)
    ∧ parseType (.union [.int, .listOf [.str], .listOf [.bool]])
        = .obj [("type", .arr [.str "integer", .str "array"]),
                ("items", .obj [("type", .str "boolean")])] := by
  have h2 : 2 ≤ (([Ann.int, Ann.listOf [Ann.str], Ann.listOf [Ann.bool]].filter
      fun a => !isNone a).length) := by
    simp [isNone]
  have hstr : ∀ a ∈ [Ann.int, Ann.listOf [Ann.str], Ann.listOf [Ann.bool]],
      ∃ s, memberTypeName a = Json.str s := by
    intro a ha
    simp only [List.mem_cons, List.not_mem_nil, or_false] at ha
    rcases ha with rfl | rfl | rfl
    · exact ⟨"integer", rfl⟩
    · exact ⟨"array", rfl⟩
    · exact ⟨"array", rfl⟩
  have h := parseType_union_distinct_types_last_items
      [Ann.int, Ann.listOf [Ann.str], Ann.listOf [Ann.bool]] h2 hstr
  refine ⟨h2, ?_⟩
  rw [h.1]
  simp [lastArrayItems, memberArrayItems, memberTypeName, jsonArrayItems,
        jsonTypeName, parseType, parseTypePairs, typeMap, lookupKey, pyDedup,
        jsonStrEq, jsonTruthy, unionStep, isNone]

/-- Claim C9: an unannotated parameter and an annotation outside the
fixed primitive table both yield `{type: "string"}` (schema building is a
total function of the modelled annotations, so it never raises), and the
seven table entries map exactly per `type_map` (lines 45–53, 107–108,
117–123). -/
theorem parseType_primitive_table (n : String) (d : Bool) :
    paramSchema ⟨n, Option.none, d⟩ = .obj [("type", .str "string")]
    ∧ paramSchema ⟨n, some .other, d⟩ = .obj [("type", .str "string")]
    ∧ parseType .str = .obj [("type", .str "string")]
    ∧ parseType .int = .obj [("type", .str "integer")]
    ∧ parseType .float = .obj [("type", .str "number")]
    ∧ parseType .bool = .obj [("type", .str "boolean")]
    ∧ parseType .list = .obj [("type", .str "array")]
    ∧ parseType .dict = .obj [("type", .str "object")]
    ∧ parseType .nonetype = .obj [("type", .str "null")] := by
  refine ⟨?_, ?_, ?_, ?_, ?_, ?_, ?_, ?_, ?_⟩ <;> simp [paramSchema, parseType, typeMap]

/-- The `required` list of a built descriptor, extracted. -/
theorem descriptorRequired_functionToJson (name : String) (doc : Option String)
    (params : List Param) :
    descriptorRequired (functionToJson name doc params)
      = (params.filter fun p => !p.hasDefault).map fun p => Json.str p.name := by
  simp [descriptorRequired, descriptorParams, functionToJson, lookupKey]

/-- The `properties` mapping of a built descriptor, extracted. -/
theorem descriptorProperties_functionToJson (name : String) (doc : Option String)
    (params : List Param) :
    descriptorProperties (functionToJson name doc params)
      = params.map fun p => (p.name, paramSchema p) := by
  simp [descriptorProperties, descriptorParams, functionToJson, lookupKey]

/-- Claim C7: a parameter appears in `required` iff it has no default
value, independently of its annotation (the filter on lines 125–129 never
looks at the annotation, so Optional-typed parameters behave the same);
`required` lists the no-default names in declaration order, `properties`
holds exactly the declared parameter names in order, and every name in
`required` is a key of `properties`. -/
theorem functionToJson_required_iff_no_default (name : String) (doc : Option String)
    (params : List Param) (p : Param)
    (hnd : (params.map Param.name).Nodup) (hp : p ∈ params) :
    descriptorRequired (functionToJson name doc params)
      = ((params.filter fun q => !q.hasDefault).map fun q => Json.str q.name)
    ∧ (Json.str p.name ∈ descriptorRequired (functionToJson name doc params)
        ↔ p.hasDefault = false)
    ∧ (descriptorProperties (functionToJson name doc params)).map Prod.fst
        = params.map Param.name
    ∧ ∀ s, Json.str s ∈ descriptorRequired (functionToJson name doc params)
        → s ∈ params.map Param.name := by
  refine ⟨descriptorRequired_functionToJson name doc params, ?_, ?_, ?_⟩
  · rw [descriptorRequired_functionToJson]
    simp only [List.mem_map, List.mem_filter, Json.str.injEq]
    constructor
    · rintro ⟨q, ⟨hq, hqd⟩, hqn⟩
      have := List.inj_on_of_nodup_map hnd hq hp hqn
      subst this
      simpa using hqd
    · intro hd
      exact ⟨p, ⟨hp, by simp [hd]⟩, rfl⟩
  · rw [descriptorProperties_functionToJson]
    simp
  · intro s hs
    rw [descriptorRequired_functionToJson] at hs
    simp only [List.mem_map, List.mem_filter, Json.str.injEq] at hs
    obtain ⟨q, ⟨hq, _⟩, hqn⟩ := hs
    subst hqn
    exact List.mem_map_of_mem Param.name hq

/-- Witness for `functionToJson_required_iff_no_default` at the spec's
end-to-end example `def add(a: int, b: int = 0)`: `required` is exactly
`["a"]`. -/
theorem functionToJson_required_iff_no_default_witness :
    descriptorRequired (functionToJson "add" (some "Add two numbers")
        [⟨"a", some .int, false⟩, ⟨"b", some .int, true⟩]) = [Json.str "a"]
    ∧ Json.str "a" ∈ descriptorRequired (functionToJson "add" (some "Add two numbers")
        [⟨"a", some .int, false⟩, ⟨"b", some .int, true⟩]) := by
  have h := functionToJson_required_iff_no_default "add" (some "Add two numbers")
    [⟨"a", some .int, false⟩, ⟨"b", some .int, true⟩] ⟨"a", some .int, false⟩
    (by simp) (List.mem_cons_self _ _)
  exact ⟨h.1.trans (by simp), h.2.1.mpr rfl⟩
